import Mathlib

/-!
Verification of the statistical-test core of `randomness_tests.py`.

The byte buffer is modelled as `List ℕ` (each entry an unsigned 8-bit value,
i.e. `< 256`, stated as a hypothesis where a result depends on it).  Python
floats are modelled as exact real numbers `ℝ`; Python's unbounded integers as
`ℤ`/`ℕ`; the float value `float("inf")` returned by `runs_test` is modelled by
`⊤ : EReal` (the `z` field of the runs result lives in `EReal`).  `math.erf` /
`math.erfc` are modelled by the mathematical error function, defined below via
the Gaussian interval integral.

Each Python test function has two embeddings:
* a total one (`monobit_test`, `runs_test`, `byte_chi_square`,
  `shannon_entropy_per_byte`, `serial_correlation`) used by the functional
  claims, and
* a "checked" one (`…Checked`) returning `Option`, which returns `none`
  exactly when some primitive operation of the Python code would raise
  (division by zero, `math.sqrt` of a negative number, `math.log2` of a
  non-positive number, out-of-range list index, fractional power of a
  negative float).  Totality claims are stated on the checked embeddings.
-/

/-- Bits (MSB first) of one byte: Python `((b >> (7 - i)) & 1 for i in range(8))`. -/
def byteBits (b : ℕ) : List ℕ :=
  (List.range 8).map fun i => (b >>> (7 - i)) &&& 1

/-- Python `bits_from_bytes`: yield bits (MSB first) from a bytes buffer. -/
def bits_from_bytes (data : List ℕ) : List ℕ :=
  data.flatMap byteBits

/-- The number of positions `i ≥ 1` with `bs[i] ≠ bs[i-1]`: the increments the
Python loop `for i in range(1, n): if bs[i] != bs[i-1]: runs += 1` performs. -/
def countFlips : List ℕ → ℕ
  | a :: b :: rest => (if a ≠ b then 1 else 0) + countFlips (b :: rest)
  | _ => 0

/-- Result record of `monobit_test`, Python tuple `(p, z, ones, zeros)`. -/
structure MonobitResult where
  p : ℝ
  z : ℝ
  ones : ℕ
  zeros : ℕ

/-- Result record of `runs_test`, Python tuple `(p, runs, expected, z)`;
`z` is an `EReal` because the code can return `float("inf")` there. -/
structure RunsResult where
  p : ℝ
  runs : ℕ
  expected : ℝ
  z : EReal

/-- Python `sum(data)` (exact integer arithmetic). -/
def s1 (data : List ℕ) : ℤ :=
  ∑ i : Fin data.length, (data.get i : ℤ)

/-- Python `sum(b * b for b in data)`. -/
def s2 (data : List ℕ) : ℤ :=
  ∑ i : Fin data.length, (data.get i : ℤ) * (data.get i : ℤ)

/-- The circular successor index `(i + 1) % n` used by `serial_correlation`. -/
def nextIdx (data : List ℕ) (i : Fin data.length) : Fin data.length :=
  ⟨(i.val + 1) % data.length, Nat.mod_lt _ i.pos⟩

/-- Python `sum(data[i] * data[(i + 1) % n] for i in range(n))`. -/
def s12 (data : List ℕ) : ℤ :=
  ∑ i : Fin data.length, (data.get i : ℤ) * (data.get (nextIdx data i) : ℤ)

/-- Python `serial_correlation`: circular lag-1 correlation of adjacent bytes.
The final float division of two exact integers is modelled as the exact
rational quotient. -/
def serial_correlation (data : List ℕ) : ℚ :=
  let n := data.length
  if n < 2 then 0
  else
    let numerator : ℤ := n * s12 data - s1 data * s1 data
    let denominator : ℤ := n * s2 data - s1 data * s1 data
    if denominator = 0 then 0 else (numerator : ℚ) / (denominator : ℚ)

open scoped Classical

/-- The error function, `math.erf`: `(2/√π) ∫ t in 0..x, exp (-t²)`. -/
noncomputable def erf (x : ℝ) : ℝ :=
  2 / Real.sqrt Real.pi * ∫ t in (0:ℝ)..x, Real.exp (-t ^ 2)

/-- The complementary error function, `math.erfc`. -/
noncomputable def erfc (x : ℝ) : ℝ :=
  1 - erf x

/-- The standard normal CDF as the code computes it: `0.5 * (1 + erf (x / √2))`. -/
noncomputable def stdNormalCdf (x : ℝ) : ℝ :=
  0.5 * (1 + erf (x / Real.sqrt 2))

/-- Python `monobit_test`. -/
noncomputable def monobit_test (data : List ℕ) : MonobitResult :=
  let bs := bits_from_bytes data
  let n := bs.length
  if n = 0 then ⟨0, 0, 0, 0⟩
  else
    let ones := bs.sum
    let zeros := n - ones
    let s : ℤ := |(ones : ℤ) - (zeros : ℤ)|
    let z : ℝ := (s : ℝ) / Real.sqrt n
    ⟨erfc (z / Real.sqrt 2), z, ones, zeros⟩

/-- The expected-runs formula `1 + (2 * ones * zeros) / n` of `runs_test`. -/
noncomputable def runsExpected (ones zeros n : ℕ) : ℝ :=
  1 + ((2 * ones * zeros : ℕ) : ℝ) / (n : ℝ)

/-- The variance formula
`(2 * ones * zeros * (2 * ones * zeros - n)) / (n ** 2 * (n - 1))` of
`runs_test` (numerator and denominator are Python ints, the division a float
division). -/
noncomputable def runsVariance (ones zeros n : ℕ) : ℝ :=
  ((2 * ones * zeros * (2 * ones * zeros - n) : ℤ) : ℝ) /
    (((n : ℤ) ^ 2 * ((n : ℤ) - 1) : ℤ) : ℝ)

/-- Python `runs_test` (Wald–Wolfowitz runs test on the bit sequence). -/
noncomputable def runs_test (data : List ℕ) : RunsResult :=
  let bs := bits_from_bytes data
  let n := bs.length
  if n < 2 then ⟨0, 0, 0, 0⟩
  else
    let ones := bs.sum
    let zeros := n - ones
    if ones = 0 ∨ zeros = 0 then ⟨0, 1, 0, ⊤⟩
    else
      let runs := 1 + countFlips bs
      let expected := runsExpected ones zeros n
      let variance := runsVariance ones zeros n
      if variance ≤ 0 then ⟨0, runs, expected, ⊤⟩
      else
        let z := ((runs : ℝ) - expected) / Real.sqrt variance
        ⟨erfc (|z| / Real.sqrt 2), runs, expected, (z : EReal)⟩

/-- The chi-square statistic of `byte_chi_square`: counts over 256 bins,
`expected = n / 256`, `chi = Σ diff² / expected`. -/
noncomputable def chiStat (data : List ℕ) : ℝ :=
  ∑ v ∈ Finset.range 256,
    (((data.count v : ℝ) - (data.length : ℝ) / 256) *
      ((data.count v : ℝ) - (data.length : ℝ) / 256)) / ((data.length : ℝ) / 256)

/-- Python `byte_chi_square`: returns `(chi_square, p_approx)` where the
p-approximation uses the Wilson–Hilferty cube-root normal transform. -/
noncomputable def byte_chi_square (data : List ℕ) : ℝ × ℝ :=
  let n := data.length
  if n = 0 then (0, 0)
  else
    let chi := chiStat data
    let df : ℝ := 255
    let c := (chi / df) ^ ((1 : ℝ) / 3)
    let mu : ℝ := 1 - 2 / (9 * df)
    let sigma := Real.sqrt (2 / (9 * df))
    let z := (c - mu) / sigma
    (chi, 1 - stdNormalCdf z)

/-- Python `shannon_entropy_per_byte`: `-Σ p_v log2 p_v` over the 256 byte
bins, zero-count bins skipped by the `continue`. -/
noncomputable def shannon_entropy_per_byte (data : List ℕ) : ℝ :=
  if data = [] then 0
  else
    ∑ v ∈ Finset.range 256,
      (if data.count v = 0 then 0
       else -(((data.count v : ℝ) / (data.length : ℝ)) *
                Real.logb 2 ((data.count v : ℝ) / (data.length : ℝ))))

/-- Checked embedding of `monobit_test`: `none` exactly when a primitive
operation would raise (`math.sqrt` of a negative argument, division by zero). -/
noncomputable def monobit_testChecked (data : List ℕ) : Option MonobitResult :=
  let bs := bits_from_bytes data
  let n := bs.length
  if n = 0 then some ⟨0, 0, 0, 0⟩
  else
    let ones := bs.sum
    let zeros := n - ones
    let s : ℤ := |(ones : ℤ) - (zeros : ℤ)|
    if (0:ℝ) ≤ (n : ℝ) ∧ Real.sqrt n ≠ 0 ∧ (0:ℝ) ≤ 2 ∧ Real.sqrt 2 ≠ 0 then
      some ⟨erfc (((s : ℝ) / Real.sqrt n) / Real.sqrt 2), (s : ℝ) / Real.sqrt n, ones, zeros⟩
    else none

/-- Checked embedding of `runs_test`: `none` exactly when a division by zero
or a `math.sqrt` of a negative argument would raise. -/
noncomputable def runs_testChecked (data : List ℕ) : Option RunsResult :=
  let bs := bits_from_bytes data
  let n := bs.length
  if n < 2 then some ⟨0, 0, 0, 0⟩
  else
    let ones := bs.sum
    let zeros := n - ones
    if ones = 0 ∨ zeros = 0 then some ⟨0, 1, 0, ⊤⟩
    else if (n : ℝ) ≠ 0 ∧ ((n : ℤ) ^ 2 * ((n : ℤ) - 1) : ℤ) ≠ 0 then
      let runs := 1 + countFlips bs
      let expected := runsExpected ones zeros n
      let variance := runsVariance ones zeros n
      if variance ≤ 0 then some ⟨0, runs, expected, ⊤⟩
      else if 0 ≤ variance ∧ Real.sqrt variance ≠ 0 ∧ (0:ℝ) ≤ 2 ∧ Real.sqrt 2 ≠ 0 then
        let z := ((runs : ℝ) - expected) / Real.sqrt variance
        some ⟨erfc (|z| / Real.sqrt 2), runs, expected, (z : EReal)⟩
      else none
    else none

/-- Checked embedding of `byte_chi_square`: `none` when a byte is out of range
for `counts[b] += 1`, a division would be by zero, the cube root would be of a
negative number, or a `math.sqrt` argument would be negative. -/
noncomputable def byte_chi_squareChecked (data : List ℕ) : Option (ℝ × ℝ) :=
  let n := data.length
  if n = 0 then some (0, 0)
  else if ∀ b ∈ data, b < 256 then
    if ((256:ℝ) ≠ 0 ∧ ((n : ℝ) / 256) ≠ 0) then
      let chi := chiStat data
      let df : ℝ := 255
      if (df ≠ 0 ∧ 0 ≤ chi / df ∧ (9 * df) ≠ 0 ∧ (0:ℝ) ≤ 2 / (9 * df) ∧
          Real.sqrt (2 / (9 * df)) ≠ 0 ∧ (0:ℝ) ≤ 2 ∧ Real.sqrt 2 ≠ 0) then
        let c := (chi / df) ^ ((1 : ℝ) / 3)
        let mu : ℝ := 1 - 2 / (9 * df)
        let sigma := Real.sqrt (2 / (9 * df))
        let z := (c - mu) / sigma
        some (chi, 1 - stdNormalCdf z)
      else none
    else none
  else none

/-- Checked embedding of `shannon_entropy_per_byte`: `none` when a byte is out
of range for `counts[b] += 1`, a division would be by zero, or a `math.log2`
argument would be non-positive. -/
noncomputable def shannon_entropyChecked (data : List ℕ) : Option ℝ :=
  if data = [] then some 0
  else if (∀ b ∈ data, b < 256) ∧ ((data.length : ℝ) ≠ 0) ∧
      (∀ v ∈ Finset.range 256, data.count v ≠ 0 →
        0 < (data.count v : ℝ) / (data.length : ℝ)) then
    some (∑ v ∈ Finset.range 256,
      (if data.count v = 0 then 0
       else -(((data.count v : ℝ) / (data.length : ℝ)) *
                Real.logb 2 ((data.count v : ℝ) / (data.length : ℝ)))))
  else none

/-- Checked embedding of `serial_correlation`: its only division is guarded by
the code's own `denominator == 0` test, so every branch returns a value. -/
def serial_correlationChecked (data : List ℕ) : Option ℚ :=
  let n := data.length
  if n < 2 then some 0
  else
    let numerator : ℤ := n * s12 data - s1 data * s1 data
    let denominator : ℤ := n * s2 data - s1 data * s1 data
    if denominator = 0 then some 0 else some ((numerator : ℚ) / (denominator : ℚ))

lemma byteBits_length (b : ℕ) : (byteBits b).length = 8 := by
  simp [byteBits]

lemma bits_from_bytes_nil : bits_from_bytes [] = [] := rfl

lemma bits_from_bytes_cons (a : ℕ) (t : List ℕ) :
    bits_from_bytes (a :: t) = byteBits a ++ bits_from_bytes t := by
  simp [bits_from_bytes]

lemma bits_length (data : List ℕ) :
    (bits_from_bytes data).length = 8 * data.length := by
  induction data with
  | nil => rfl
  | cons a t ih =>
      rw [bits_from_bytes_cons, List.length_append, byteBits_length, ih,
        List.length_cons]
      ring

lemma mem_byteBits_le_one {b x : ℕ} (hx : x ∈ byteBits b) : x ≤ 1 := by
  simp only [byteBits, List.mem_map, List.mem_range] at hx
  obtain ⟨i, -, rfl⟩ := hx
  rw [Nat.and_one_is_mod]
  omega

lemma mem_bits_le_one {data : List ℕ} {x : ℕ}
    (hx : x ∈ bits_from_bytes data) : x ≤ 1 := by
  simp only [bits_from_bytes, List.mem_flatMap] at hx
  obtain ⟨b, -, hb⟩ := hx
  exact mem_byteBits_le_one hb

lemma bits_sum_le (data : List ℕ) :
    (bits_from_bytes data).sum ≤ (bits_from_bytes data).length := by
  have h := List.sum_le_card_nsmul (bits_from_bytes data) 1
    (fun x hx => mem_bits_le_one hx)
  simpa using h

lemma countFlips_le : ∀ (l : List ℕ), countFlips l ≤ l.length - 1
  | [] => le_refl _
  | [_] => le_refl _
  | a :: b :: rest => by
      have h := countFlips_le (b :: rest)
      simp only [countFlips, List.length_cons] at h ⊢
      split <;> omega

lemma gaussInt_nonneg {x : ℝ} (hx : 0 ≤ x) :
    0 ≤ ∫ t in (0:ℝ)..x, Real.exp (-t ^ 2) :=
  intervalIntegral.integral_nonneg hx fun _ _ => (Real.exp_pos _).le

lemma integrable_gauss : MeasureTheory.Integrable fun t : ℝ => Real.exp (-t ^ 2) := by
  have h := integrable_exp_neg_mul_sq (b := 1) one_pos
  simpa using h

lemma gaussInt_Ioi :
    (∫ t in Set.Ioi (0:ℝ), Real.exp (-t ^ 2)) = Real.sqrt Real.pi / 2 := by
  have h := integral_gaussian_Ioi 1
  simpa using h

lemma gaussInt_le_of_nonneg {x : ℝ} (hx : 0 ≤ x) :
    (∫ t in (0:ℝ)..x, Real.exp (-t ^ 2)) ≤ Real.sqrt Real.pi / 2 := by
  rw [intervalIntegral.integral_of_le hx, ← gaussInt_Ioi]
  apply MeasureTheory.setIntegral_mono_set
  · exact integrable_gauss.integrableOn
  · exact MeasureTheory.ae_of_all _ fun t => (Real.exp_pos _).le
  · exact Set.Ioc_subset_Ioi_self.eventuallyLE

lemma gaussInt_symm (x : ℝ) :
    (∫ t in x..(0:ℝ), Real.exp (-t ^ 2)) = ∫ t in (0:ℝ)..(-x), Real.exp (-t ^ 2) := by
  have h : (∫ t in (0:ℝ)..(-x), Real.exp (-(-t) ^ 2)) =
      ∫ t in (-(-x))..(-(0:ℝ)), Real.exp (-t ^ 2) :=
    intervalIntegral.integral_comp_neg (fun t => Real.exp (-t ^ 2))
  simp only [neg_sq, neg_neg, neg_zero] at h
  exact h.symm

lemma gaussInt_bounds (x : ℝ) :
    -(Real.sqrt Real.pi / 2) ≤ (∫ t in (0:ℝ)..x, Real.exp (-t ^ 2)) ∧
      (∫ t in (0:ℝ)..x, Real.exp (-t ^ 2)) ≤ Real.sqrt Real.pi / 2 := by
  rcases le_or_lt 0 x with hx | hx
  · refine ⟨?_, gaussInt_le_of_nonneg hx⟩
    have h0 := gaussInt_nonneg hx
    have h1 : (0:ℝ) ≤ Real.sqrt Real.pi / 2 := by positivity
    linarith
  · have hswap : (∫ t in (0:ℝ)..x, Real.exp (-t ^ 2)) =
        -(∫ t in x..(0:ℝ), Real.exp (-t ^ 2)) := intervalIntegral.integral_symm x 0
    have heq := gaussInt_symm x
    have hnn : 0 ≤ ∫ t in (0:ℝ)..(-x), Real.exp (-t ^ 2) :=
      gaussInt_nonneg (by linarith)
    have hub : (∫ t in (0:ℝ)..(-x), Real.exp (-t ^ 2)) ≤ Real.sqrt Real.pi / 2 :=
      gaussInt_le_of_nonneg (by linarith)
    have h1 : (0:ℝ) ≤ Real.sqrt Real.pi / 2 := by positivity
    constructor <;> rw [hswap, heq] <;> linarith

lemma sqrt_pi_pos : 0 < Real.sqrt Real.pi :=
  Real.sqrt_pos.mpr Real.pi_pos

lemma erf_le_one (x : ℝ) : erf x ≤ 1 := by
  unfold erf
  have h := (gaussInt_bounds x).2
  have hpos := sqrt_pi_pos
  have key : 2 / Real.sqrt Real.pi * (Real.sqrt Real.pi / 2) = 1 := by
    field_simp
  calc 2 / Real.sqrt Real.pi * ∫ t in (0:ℝ)..x, Real.exp (-t ^ 2)
      ≤ 2 / Real.sqrt Real.pi * (Real.sqrt Real.pi / 2) :=
        mul_le_mul_of_nonneg_left h (by positivity)
    _ = 1 := key

lemma neg_one_le_erf (x : ℝ) : -1 ≤ erf x := by
  unfold erf
  have h := (gaussInt_bounds x).1
  have hpos := sqrt_pi_pos
  have key : 2 / Real.sqrt Real.pi * -(Real.sqrt Real.pi / 2) = -1 := by
    field_simp
    ring
  calc (-1 : ℝ) = 2 / Real.sqrt Real.pi * -(Real.sqrt Real.pi / 2) := key.symm
    _ ≤ 2 / Real.sqrt Real.pi * ∫ t in (0:ℝ)..x, Real.exp (-t ^ 2) :=
        mul_le_mul_of_nonneg_left h (by positivity)

lemma erf_nonneg {x : ℝ} (hx : 0 ≤ x) : 0 ≤ erf x :=
  mul_nonneg (by positivity) (gaussInt_nonneg hx)

lemma erfc_nonneg (x : ℝ) : 0 ≤ erfc x := by
  unfold erfc
  linarith [erf_le_one x]

lemma erfc_le_one {x : ℝ} (hx : 0 ≤ x) : erfc x ≤ 1 := by
  unfold erfc
  linarith [erf_nonneg hx]

lemma stdNormalCdf_nonneg (x : ℝ) : 0 ≤ stdNormalCdf x := by
  unfold stdNormalCdf
  have h := neg_one_le_erf (x / Real.sqrt 2)
  norm_num
  linarith

lemma stdNormalCdf_le_one (x : ℝ) : stdNormalCdf x ≤ 1 := by
  unfold stdNormalCdf
  have h := erf_le_one (x / Real.sqrt 2)
  norm_num
  linarith

lemma runs_test_eq_const (data : List ℕ)
    (h2 : ¬ (bits_from_bytes data).length < 2)
    (hc : (bits_from_bytes data).sum = 0 ∨
      (bits_from_bytes data).length - (bits_from_bytes data).sum = 0) :
    runs_test data = ⟨0, 1, 0, ⊤⟩ := by
  simp only [runs_test]
  rw [if_neg h2, if_pos hc]

lemma runs_test_runs_mixed (data : List ℕ)
    (h2 : ¬ (bits_from_bytes data).length < 2)
    (ho : ¬ (bits_from_bytes data).sum = 0)
    (hz : ¬ (bits_from_bytes data).length - (bits_from_bytes data).sum = 0) :
    (runs_test data).runs = 1 + countFlips (bits_from_bytes data) := by
  simp only [runs_test]
  rw [if_neg h2, if_neg (by tauto :
    ¬((bits_from_bytes data).sum = 0 ∨
      (bits_from_bytes data).length - (bits_from_bytes data).sum = 0))]
  by_cases hv : runsVariance (bits_from_bytes data).sum
      ((bits_from_bytes data).length - (bits_from_bytes data).sum)
      (bits_from_bytes data).length ≤ 0
  · rw [if_pos hv]
  · rw [if_neg hv]

/-- C1: for the buffer `[0xFF, 0x00, 0xFF, 0x00]` the claim that
`runs_test` counts 8 runs is false: the bit sequence is eight ones, eight
zeros, eight ones, eight zeros, giving 4 runs. -/
theorem c1_counterexample : (runs_test [255, 0, 255, 0]).runs ≠ 8 := by
  rw [runs_test_runs_mixed _ (by decide) (by decide) (by decide)]
  decide

/-- C1 (amended): for the buffer `[0xFF, 0x00, 0xFF, 0x00]` the derived bit
sequence has 16 ones and 16 zeros, and `runs_test` counts 4 runs (the bits
flip at the three byte boundaries only). -/
theorem c1_alternating : (bits_from_bytes [255, 0, 255, 0]).sum = 16 ∧
    (bits_from_bytes [255, 0, 255, 0]).length -
      (bits_from_bytes [255, 0, 255, 0]).sum = 16 ∧
    (runs_test [255, 0, 255, 0]).runs = 4 := by
  refine ⟨by decide, by decide, ?_⟩
  rw [runs_test_runs_mixed _ (by decide) (by decide) (by decide)]
  decide

/-- C6: for every non-empty byte buffer, the runs count returned by
`runs_test` satisfies `1 ≤ runs ≤ n` where `n = 8 * len(buffer)` is the bit
count. -/
theorem c6_runs_bounds (data : List ℕ) (hne : data ≠ []) :
    1 ≤ (runs_test data).runs ∧ (runs_test data).runs ≤ 8 * data.length := by
  have hlen := bits_length data
  have hpos : 0 < data.length := List.length_pos.mpr hne
  have h2 : ¬ (bits_from_bytes data).length < 2 := by omega
  by_cases hc : (bits_from_bytes data).sum = 0 ∨
      (bits_from_bytes data).length - (bits_from_bytes data).sum = 0
  · rw [runs_test_eq_const data h2 hc]
    refine ⟨le_refl 1, ?_⟩
    show 1 ≤ 8 * data.length
    omega
  · push_neg at hc
    rw [runs_test_runs_mixed data h2 hc.1 hc.2]
    have hf := countFlips_le (bits_from_bytes data)
    omega

/-- C6 witness at the concrete buffer `[0]`. -/
theorem c6_runs_bounds_witness :
    1 ≤ (runs_test [0]).runs ∧ (runs_test [0]).runs ≤ 8 * ([0] : List ℕ).length :=
  c6_runs_bounds [0] (by decide)

/-- C7: for every non-empty byte buffer whose derived bit sequence is
constant (all-zero or all-one), `runs_test` returns
`p = 0`, `runs = 1`, `expected = 0`, `z = +∞`. -/
theorem c7_constant_runs (data : List ℕ) (hne : data ≠ [])
    (hc : (bits_from_bytes data).sum = 0 ∨
      (bits_from_bytes data).sum = (bits_from_bytes data).length) :
    runs_test data = ⟨0, 1, 0, ⊤⟩ := by
  have hlen := bits_length data
  have hpos : 0 < data.length := List.length_pos.mpr hne
  exact runs_test_eq_const data (by omega) (by omega)

/-- C7 witness at the all-zero buffer `[0]`. -/
theorem c7_constant_runs_witness : runs_test [0] = ⟨0, 1, 0, ⊤⟩ :=
  c7_constant_runs [0] (by decide) (Or.inl (by decide))

/-- C10: on a non-empty buffer with constant bit sequence `runs_test`
short-circuits with `expected_runs = 0`, although the general formula
`1 + 2*ones*zeros/n` would give 1 there; and on the empty buffer (the only
byte buffer with bit count `< 2`) it returns `runs = 0` and
`expected_runs = 0`. -/
theorem c10_short_circuit :
    (∀ data : List ℕ, data ≠ [] →
      ((bits_from_bytes data).sum = 0 ∨
        (bits_from_bytes data).sum = (bits_from_bytes data).length) →
      (runs_test data).expected = 0 ∧
        runsExpected (bits_from_bytes data).sum
          ((bits_from_bytes data).length - (bits_from_bytes data).sum)
          (bits_from_bytes data).length = 1) ∧
    runs_test [] = ⟨0, 0, 0, 0⟩ := by
  constructor
  · intro data hne hc
    have hlen := bits_length data
    have hpos : 0 < data.length := List.length_pos.mpr hne
    constructor
    · rw [runs_test_eq_const data (by omega) (by omega)]
    · unfold runsExpected
      have hz : 2 * (bits_from_bytes data).sum *
          ((bits_from_bytes data).length - (bits_from_bytes data).sum) = 0 := by
        rcases hc with h | h
        · rw [h, mul_zero, zero_mul]
        · rw [h, Nat.sub_self, mul_zero]
      rw [hz]
      simp
  · rfl

/-- C10 witness at the all-zero buffer `[0]`. -/
theorem c10_short_circuit_witness :
    (runs_test [0]).expected = 0 ∧
      runsExpected (bits_from_bytes [0]).sum
        ((bits_from_bytes [0]).length - (bits_from_bytes [0]).sum)
        (bits_from_bytes [0]).length = 1 :=
  c10_short_circuit.1 [0] (by decide) (Or.inl (by decide))

lemma monobit_test_eq (data : List ℕ)
    (h0 : ¬ (bits_from_bytes data).length = 0) :
    monobit_test data =
      ⟨erfc ((((|((bits_from_bytes data).sum : ℤ) -
            (((bits_from_bytes data).length - (bits_from_bytes data).sum : ℕ) : ℤ)| : ℤ) : ℝ) /
          Real.sqrt ((bits_from_bytes data).length)) / Real.sqrt 2),
        ((|((bits_from_bytes data).sum : ℤ) -
            (((bits_from_bytes data).length - (bits_from_bytes data).sum : ℕ) : ℤ)| : ℤ) : ℝ) /
          Real.sqrt ((bits_from_bytes data).length),
        (bits_from_bytes data).sum,
        (bits_from_bytes data).length - (bits_from_bytes data).sum⟩ := by
  simp only [monobit_test]
  rw [if_neg h0]

/-- C5: the monobit result satisfies `ones + zeros = n` with `n = 8·len(buffer)`,
its p-value lies in `[0, 1]`, and for a non-empty buffer the p-value equals
`erfc (|ones − zeros| / √(2n))`. -/
theorem c5_monobit_invariants (data : List ℕ) :
    (monobit_test data).ones + (monobit_test data).zeros = 8 * data.length ∧
    0 ≤ (monobit_test data).p ∧ (monobit_test data).p ≤ 1 ∧
    (data ≠ [] → (monobit_test data).p =
      erfc ((|((monobit_test data).ones : ℤ) - ((monobit_test data).zeros : ℤ)| : ℝ) /
        Real.sqrt ((2 * (8 * data.length) : ℕ)))) := by
  by_cases h0 : (bits_from_bytes data).length = 0
  · have hd : data = [] := by
      have := bits_length data
      rw [h0] at this
      exact List.length_eq_zero.mp (by omega)
    subst hd
    have hm : monobit_test [] = ⟨0, 0, 0, 0⟩ := rfl
    rw [hm]
    refine ⟨rfl, le_refl _, zero_le_one, fun h => absurd rfl h⟩
  · rw [monobit_test_eq data h0]
    have hsum := bits_sum_le data
    have hlen := bits_length data
    have habs : (0:ℝ) ≤ ((|((bits_from_bytes data).sum : ℤ) -
        (((bits_from_bytes data).length - (bits_from_bytes data).sum : ℕ) : ℤ)| : ℤ) : ℝ) := by
      exact_mod_cast abs_nonneg _
    have harg : (0:ℝ) ≤ (((|((bits_from_bytes data).sum : ℤ) -
          (((bits_from_bytes data).length - (bits_from_bytes data).sum : ℕ) : ℤ)| : ℤ) : ℝ) /
        Real.sqrt ((bits_from_bytes data).length)) / Real.sqrt 2 := by
      apply div_nonneg (div_nonneg habs (Real.sqrt_nonneg _)) (Real.sqrt_nonneg _)
    refine ⟨?_, erfc_nonneg _, erfc_le_one harg, fun _ => ?_⟩
    · show (bits_from_bytes data).sum +
        ((bits_from_bytes data).length - (bits_from_bytes data).sum) = 8 * data.length
      omega
    show erfc ((((|((bits_from_bytes data).sum : ℤ) -
          (((bits_from_bytes data).length - (bits_from_bytes data).sum : ℕ) : ℤ)| : ℤ) : ℝ)) /
        Real.sqrt ((bits_from_bytes data).length) / Real.sqrt 2) =
      erfc (|((((bits_from_bytes data).sum : ℤ) : ℝ)) -
          ((((bits_from_bytes data).length - (bits_from_bytes data).sum : ℕ) : ℤ) : ℝ)| /
        Real.sqrt ((2 * (8 * data.length) : ℕ)))
    have hden : Real.sqrt ((bits_from_bytes data).length) * Real.sqrt 2 =
        Real.sqrt ((2 * (8 * data.length) : ℕ)) := by
      rw [← Real.sqrt_mul (by positivity) 2]
      congr 1
      rw [hlen]
      push_cast
      ring
    rw [div_div, hden, Int.cast_abs]
    norm_cast

/-- C5 witness at the concrete buffer `[1]`. -/
theorem c5_monobit_invariants_witness :
    (monobit_test [1]).ones + (monobit_test [1]).zeros = 8 * ([1] : List ℕ).length ∧
    0 ≤ (monobit_test [1]).p ∧ (monobit_test [1]).p ≤ 1 ∧
    (monobit_test [1]).p =
      erfc ((|((monobit_test [1]).ones : ℤ) - ((monobit_test [1]).zeros : ℤ)| : ℝ) /
        Real.sqrt ((2 * (8 * ([1] : List ℕ).length) : ℕ))) :=
  ⟨(c5_monobit_invariants [1]).1, (c5_monobit_invariants [1]).2.1,
    (c5_monobit_invariants [1]).2.2.1, (c5_monobit_invariants [1]).2.2.2 (by decide)⟩

lemma byteBits_getD (b j : ℕ) (hj : j < 8) :
    (byteBits b).getD j 0 = (b >>> (7 - j)) &&& 1 := by
  rw [List.getD_eq_getElem _ _ (by rw [byteBits_length]; omega)]
  simp [byteBits]

lemma bits_from_bytes_getD : ∀ (data : List ℕ) (i j : ℕ), i < data.length → j < 8 →
    (bits_from_bytes data).getD (8 * i + j) 0 = ((data.getD i 0) >>> (7 - j)) &&& 1
  | [], i, _, hi, _ => absurd hi (by simp)
  | a :: t, 0, j, _, hj => by
      rw [bits_from_bytes_cons,
        List.getD_append _ _ _ _ (by rw [byteBits_length]; omega)]
      simpa using byteBits_getD a j hj
  | a :: t, i + 1, j, hi, hj => by
      rw [bits_from_bytes_cons]
      have h8 : 8 * (i + 1) + j = (byteBits a).length + (8 * i + j) := by
        rw [byteBits_length]
        ring
      rw [h8, List.getD_append_right _ _ _ _ (by omega)]
      have ht : (byteBits a).length + (8 * i + j) - (byteBits a).length = 8 * i + j := by
        omega
      rw [ht]
      have := bits_from_bytes_getD t i j (by simpa using Nat.lt_of_succ_lt_succ hi) hj
      simpa using this

lemma shift_and_one_eq_testBit (b k : ℕ) :
    (b >>> k) &&& 1 = (if b.testBit k then 1 else 0) := by
  rw [Nat.and_one_is_mod, Nat.testBit_to_div_mod, Nat.shiftRight_eq_div_pow]
  rcases Nat.mod_two_eq_zero_or_one (b / 2 ^ k) with h | h <;> simp [h]

/-- C4: `bits_from_bytes` yields exactly `8·n` bits, each in `{0, 1}`; the bit
at position `8·i + j` (`0 ≤ j < 8`) is bit `7 − j` of byte `i` (each byte is
emitted most-significant bit first); the empty buffer yields the empty
sequence. -/
theorem c4_bits_spec (data : List ℕ) :
    (bits_from_bytes data).length = 8 * data.length ∧
    (∀ x ∈ bits_from_bytes data, x = 0 ∨ x = 1) ∧
    (∀ i j : ℕ, i < data.length → j < 8 →
      (bits_from_bytes data).getD (8 * i + j) 0 =
        (if (data.getD i 0).testBit (7 - j) then 1 else 0)) ∧
    bits_from_bytes [] = [] := by
  refine ⟨bits_length data, ?_, ?_, rfl⟩
  · intro x hx
    have := mem_bits_le_one hx
    omega
  · intro i j hi hj
    rw [bits_from_bytes_getD data i j hi hj, shift_and_one_eq_testBit]

/-- C4 witness: bit position `8·0 + 7` of the buffer `[5]` is bit `0` of `5`. -/
theorem c4_bits_spec_witness :
    (bits_from_bytes [5]).getD (8 * 0 + 7) 0 =
      (if (([5] : List ℕ).getD 0 0).testBit (7 - 7) then 1 else 0) :=
  (c4_bits_spec [5]).2.2.1 0 7 (by decide) (by decide)

lemma sum_comp_nextIdx : ∀ (data : List ℕ) (f : Fin data.length → ℤ),
    ∑ i, f (nextIdx data i) = ∑ i, f i
  | [], _ => by simp
  | a :: t, f => by
      haveI : NeZero (a :: t).length := ⟨by simp⟩
      have he : ∀ i : Fin (a :: t).length, nextIdx (a :: t) i = i + 1 := by
        intro i
        apply Fin.ext
        rw [Fin.val_add, Fin.val_one']
        show (i.val + 1) % (a :: t).length =
          (i.val + 1 % (a :: t).length) % (a :: t).length
        conv_lhs => rw [Nat.add_mod]
        conv_rhs => rw [Nat.add_mod, Nat.mod_mod_of_dvd 1 dvd_rfl]
      calc ∑ i, f (nextIdx (a :: t) i)
          = ∑ i, f (Equiv.addRight (1 : Fin (a :: t).length) i) :=
            Finset.sum_congr rfl fun i _ => by rw [he i]; rfl
        _ = ∑ i, f i := Equiv.sum_comp _ f

lemma cauchy_bytes (data : List ℕ) :
    s1 data * s1 data ≤ (data.length : ℤ) * s2 data := by
  have h := sq_sum_le_card_mul_sum_sq
    (s := (Finset.univ : Finset (Fin data.length)))
    (f := fun i => (data.get i : ℤ))
  simp only [Finset.card_univ, Fintype.card_fin] at h
  calc s1 data * s1 data = (∑ i, (data.get i : ℤ)) ^ 2 := by rw [s1]; ring
    _ ≤ (data.length : ℤ) * ∑ i, (data.get i : ℤ) ^ 2 := h
    _ = (data.length : ℤ) * s2 data := by
        rw [s2]
        congr 1
        exact Finset.sum_congr rfl fun i _ => by ring

lemma s12_le_s2 (data : List ℕ) : s12 data ≤ s2 data := by
  have hshift : ∑ i, (data.get (nextIdx data i) : ℤ) * (data.get (nextIdx data i) : ℤ) =
      ∑ i, (data.get i : ℤ) * (data.get i : ℤ) :=
    sum_comp_nextIdx data fun i => (data.get i : ℤ) * (data.get i : ℤ)
  have key : ∑ i, (2:ℤ) * ((data.get i : ℤ) * (data.get (nextIdx data i) : ℤ)) ≤
      2 * s2 data := by
    calc ∑ i, (2:ℤ) * ((data.get i : ℤ) * (data.get (nextIdx data i) : ℤ))
        ≤ ∑ i, ((data.get i : ℤ) * (data.get i : ℤ) +
            (data.get (nextIdx data i) : ℤ) * (data.get (nextIdx data i) : ℤ)) := by
          apply Finset.sum_le_sum
          intro i _
          nlinarith [sq_nonneg ((data.get i : ℤ) - (data.get (nextIdx data i) : ℤ))]
      _ = (∑ i, (data.get i : ℤ) * (data.get i : ℤ)) +
            ∑ i, (data.get (nextIdx data i) : ℤ) * (data.get (nextIdx data i) : ℤ) :=
          Finset.sum_add_distrib
      _ = 2 * s2 data := by rw [hshift, s2]; ring
  have h12 : 2 * s12 data =
      ∑ i, (2:ℤ) * ((data.get i : ℤ) * (data.get (nextIdx data i) : ℤ)) := by
    rw [s12, Finset.mul_sum]
  linarith

lemma two_s1_sq_le (data : List ℕ) :
    4 * (s1 data * s1 data) ≤ (data.length : ℤ) * (2 * s2 data + 2 * s12 data) := by
  have hshift : ∑ i, (data.get (nextIdx data i) : ℤ) = ∑ i, (data.get i : ℤ) :=
    sum_comp_nextIdx data fun i => (data.get i : ℤ)
  have hshift2 : ∑ i, (data.get (nextIdx data i) : ℤ) * (data.get (nextIdx data i) : ℤ) =
      ∑ i, (data.get i : ℤ) * (data.get i : ℤ) :=
    sum_comp_nextIdx data fun i => (data.get i : ℤ) * (data.get i : ℤ)
  have h := sq_sum_le_card_mul_sum_sq
    (s := (Finset.univ : Finset (Fin data.length)))
    (f := fun i => (data.get i : ℤ) + (data.get (nextIdx data i) : ℤ))
  simp only [Finset.card_univ, Fintype.card_fin] at h
  have hsum : ∑ i, ((data.get i : ℤ) + (data.get (nextIdx data i) : ℤ)) =
      2 * s1 data := by
    rw [Finset.sum_add_distrib, hshift, s1]
    ring
  have hsq : ∑ i, ((data.get i : ℤ) + (data.get (nextIdx data i) : ℤ)) ^ 2 =
      2 * s2 data + 2 * s12 data := by
    have hterm : ∀ i : Fin data.length,
        ((data.get i : ℤ) + (data.get (nextIdx data i) : ℤ)) ^ 2 =
          (data.get i : ℤ) * (data.get i : ℤ) +
            (2:ℤ) * ((data.get i : ℤ) * (data.get (nextIdx data i) : ℤ)) +
            (data.get (nextIdx data i) : ℤ) * (data.get (nextIdx data i) : ℤ) :=
      fun i => by ring
    rw [Finset.sum_congr rfl fun i _ => hterm i, Finset.sum_add_distrib,
      Finset.sum_add_distrib, hshift2, ← Finset.mul_sum, ← s12, ← s2]
    ring
  rw [hsum, hsq] at h
  nlinarith [h]

/-- C2: `serial_correlation` always lies in `[-1, 1]`; it is `0` when the
buffer has fewer than two bytes or when the denominator `n·S2 − S1²`
vanishes (constant buffer), and otherwise equals the exact ratio
`(n·S12 − S1²) / (n·S2 − S1²)`. -/
theorem c2_serial_correlation_range (data : List ℕ) :
    (-1 ≤ serial_correlation data ∧ serial_correlation data ≤ 1) ∧
    (data.length < 2 → serial_correlation data = 0) ∧
    ((data.length : ℤ) * s2 data - s1 data * s1 data = 0 →
      serial_correlation data = 0) ∧
    (¬ data.length < 2 →
      (data.length : ℤ) * s2 data - s1 data * s1 data ≠ 0 →
      serial_correlation data =
        (((data.length : ℤ) * s12 data - s1 data * s1 data : ℤ) : ℚ) /
          (((data.length : ℤ) * s2 data - s1 data * s1 data : ℤ) : ℚ)) := by
  by_cases hn : data.length < 2
  · have hv : serial_correlation data = 0 := by
      simp only [serial_correlation]
      rw [if_pos hn]
    rw [hv]
    exact ⟨⟨by norm_num, by norm_num⟩, fun _ => rfl, fun _ => rfl,
      fun h _ => absurd hn h⟩
  · by_cases hd : (data.length : ℤ) * s2 data - s1 data * s1 data = 0
    · have hv : serial_correlation data = 0 := by
        simp only [serial_correlation]
        rw [if_neg hn, if_pos hd]
      rw [hv]
      exact ⟨⟨by norm_num, by norm_num⟩, fun h => absurd h hn, fun _ => rfl,
        fun _ h => absurd hd h⟩
    · have hv : serial_correlation data =
          (((data.length : ℤ) * s12 data - s1 data * s1 data : ℤ) : ℚ) /
            (((data.length : ℤ) * s2 data - s1 data * s1 data : ℤ) : ℚ) := by
        simp only [serial_correlation]
        rw [if_neg hn, if_neg hd]
      have hden_nonneg : (0:ℤ) ≤ (data.length : ℤ) * s2 data - s1 data * s1 data := by
        have := cauchy_bytes data
        linarith
      have hden_pos : (0:ℤ) < (data.length : ℤ) * s2 data - s1 data * s1 data :=
        lt_of_le_of_ne hden_nonneg (Ne.symm hd)
      have hQden : (0:ℚ) <
          (((data.length : ℤ) * s2 data - s1 data * s1 data : ℤ) : ℚ) := by
        exact_mod_cast hden_pos
      have hnum_le : (data.length : ℤ) * s12 data - s1 data * s1 data ≤
          (data.length : ℤ) * s2 data - s1 data * s1 data := by
        have h1 : (data.length : ℤ) * s12 data ≤ (data.length : ℤ) * s2 data :=
          mul_le_mul_of_nonneg_left (s12_le_s2 data) (Int.ofNat_nonneg _)
        linarith
      have hnum_ge : -((data.length : ℤ) * s2 data - s1 data * s1 data) ≤
          (data.length : ℤ) * s12 data - s1 data * s1 data := by
        have h1 := two_s1_sq_le data
        nlinarith [h1]
      rw [hv]
      refine ⟨⟨?_, ?_⟩, fun h => absurd h hn, fun h => absurd h hd, fun _ _ => rfl⟩
      · rw [le_div_iff₀ hQden]
        have : (-1 : ℚ) * (((data.length : ℤ) * s2 data - s1 data * s1 data : ℤ) : ℚ) =
            ((-((data.length : ℤ) * s2 data - s1 data * s1 data) : ℤ) : ℚ) := by
          push_cast
          ring
        rw [this]
        exact_mod_cast hnum_ge
      · rw [div_le_one hQden]
        exact_mod_cast hnum_le

/-- C2 witness at the concrete buffer `[0, 1]` (where the correlation is −1). -/
theorem c2_serial_correlation_range_witness :
    -1 ≤ serial_correlation [0, 1] ∧ serial_correlation [0, 1] ≤ 1 :=
  (c2_serial_correlation_range [0, 1]).1

lemma sum_count_256 (data : List ℕ) (hb : ∀ b ∈ data, b < 256) :
    ∑ v ∈ Finset.range 256, data.count v = data.length := by
  induction data with
  | nil => simp
  | cons a t ih =>
      have ha : a ∈ Finset.range 256 := Finset.mem_range.mpr (hb a (by simp))
      have iht := ih fun b hbm => hb b (by simp [hbm])
      simp only [List.count_cons, List.length_cons, beq_iff_eq]
      rw [Finset.sum_add_distrib, iht]
      have hone : (∑ x ∈ Finset.range 256, if a = x then 1 else 0) = 1 := by
        rw [Finset.sum_ite_eq (Finset.range 256) a fun _ => 1, if_pos ha]
      rw [hone]

lemma entropy_term_nonneg (c n : ℕ) (hcn : c ≤ n) (hn : 0 < n) :
    0 ≤ (if c = 0 then (0:ℝ)
      else -(((c:ℝ) / (n:ℝ)) * Real.logb 2 ((c:ℝ) / (n:ℝ)))) := by
  split
  · exact le_refl 0
  · rename_i hc
    have hp : 0 < (c:ℝ) / (n:ℝ) := by
      apply div_pos
      · exact_mod_cast Nat.pos_of_ne_zero hc
      · exact_mod_cast hn
    have hp1 : (c:ℝ) / (n:ℝ) ≤ 1 := by
      rw [div_le_one (by exact_mod_cast hn)]
      exact_mod_cast hcn
    have hlog := Real.logb_nonpos one_lt_two hp.le hp1
    have := mul_nonpos_of_nonneg_of_nonpos hp.le hlog
    linarith

lemma entropy_term_le (c n : ℕ) (hn : 0 < n) :
    (if c = 0 then (0:ℝ)
      else -(((c:ℝ) / (n:ℝ)) * Real.logb 2 ((c:ℝ) / (n:ℝ)))) ≤
    8 * ((c:ℝ) / (n:ℝ)) + (1 / Real.log 2) * (1 / 256 - (c:ℝ) / (n:ℝ)) := by
  have hlog2 : 0 < Real.log 2 := Real.log_pos one_lt_two
  split
  · rename_i hc
    rw [hc]
    push_cast
    rw [zero_div]
    positivity
  · rename_i hc
    have hp : 0 < (c:ℝ) / (n:ℝ) := by
      apply div_pos
      · exact_mod_cast Nat.pos_of_ne_zero hc
      · exact_mod_cast hn
    set p : ℝ := (c:ℝ) / (n:ℝ) with hpdef
    have h1 : Real.log (1 / (256 * p)) ≤ 1 / (256 * p) - 1 :=
      Real.log_le_sub_one_of_pos (by positivity)
    have h2 : Real.log (1 / (256 * p)) = -(Real.log 256 + Real.log p) := by
      rw [one_div, Real.log_inv, Real.log_mul (by norm_num) hp.ne']
    have h3 : Real.log 256 = 8 * Real.log 2 := by
      rw [show (256:ℝ) = 2 ^ 8 by norm_num, Real.log_pow]
      push_cast
      ring
    have h4 : p * (1 / (256 * p)) = 1 / 256 := by
      field_simp
      ring
    have key : -(p * Real.log p) ≤ 8 * p * Real.log 2 + (1 / 256 - p) := by
      have h5 : p * Real.log (1 / (256 * p)) ≤ p * (1 / (256 * p) - 1) :=
        mul_le_mul_of_nonneg_left h1 hp.le
      rw [h2, h3] at h5
      have h6 : p * (1 / (256 * p) - 1) = 1 / 256 - p := by
        rw [mul_sub, h4]
        ring
      rw [h6] at h5
      nlinarith [h5]
    have expand : -(p * Real.logb 2 p) = (-(p * Real.log p)) / Real.log 2 := by
      rw [Real.logb]
      ring
    have expand2 : 8 * p + (1 / Real.log 2) * (1 / 256 - p) =
        (8 * p * Real.log 2 + (1 / 256 - p)) / Real.log 2 := by
      field_simp
      ring
    rw [expand, expand2]
    gcongr

/-- C8: the Shannon entropy per byte is in `[0, 8]` for every byte buffer, and
the ceiling `8` is attained exactly at a buffer containing every byte value
`0..255` exactly once. -/
theorem c8_entropy_range :
    (∀ data : List ℕ, (∀ b ∈ data, b < 256) →
      0 ≤ shannon_entropy_per_byte data ∧ shannon_entropy_per_byte data ≤ 8) ∧
    shannon_entropy_per_byte (List.range 256) = 8 := by
  constructor
  · intro data hb
    by_cases hnil : data = []
    · subst hnil
      have h0 : shannon_entropy_per_byte [] = 0 := by
        rw [shannon_entropy_per_byte, if_pos rfl]
      rw [h0]
      norm_num
    · have hn : 0 < data.length := List.length_pos.mpr hnil
      have hE : shannon_entropy_per_byte data =
          ∑ v ∈ Finset.range 256,
            (if data.count v = 0 then (0:ℝ)
             else -(((data.count v : ℝ) / (data.length : ℝ)) *
                Real.logb 2 ((data.count v : ℝ) / (data.length : ℝ)))) := by
        rw [shannon_entropy_per_byte, if_neg hnil]
      constructor
      · rw [hE]
        apply Finset.sum_nonneg
        intro v _
        exact entropy_term_nonneg _ _ (data.count_le_length v) hn
      · rw [hE]
        have hsum := sum_count_256 data hb
        have hps : ∑ v ∈ Finset.range 256,
            ((data.count v : ℝ) / (data.length : ℝ)) = 1 := by
          rw [← Finset.sum_div]
          have hcast : ∑ v ∈ Finset.range 256, (data.count v : ℝ) =
              (data.length : ℝ) := by
            rw [← Nat.cast_sum, hsum]
          rw [hcast, div_self (by positivity)]
        calc ∑ v ∈ Finset.range 256,
            (if data.count v = 0 then (0:ℝ)
             else -(((data.count v : ℝ) / (data.length : ℝ)) *
                Real.logb 2 ((data.count v : ℝ) / (data.length : ℝ))))
            ≤ ∑ v ∈ Finset.range 256,
              (8 * ((data.count v : ℝ) / (data.length : ℝ)) +
                (1 / Real.log 2) *
                  (1 / 256 - (data.count v : ℝ) / (data.length : ℝ))) :=
            Finset.sum_le_sum fun v _ => entropy_term_le _ _ hn
          _ = 8 := by
            rw [Finset.sum_add_distrib, ← Finset.mul_sum, ← Finset.mul_sum, hps,
              Finset.sum_sub_distrib, hps]
            simp
  · have hne : (List.range 256) ≠ [] := by
      simp [List.range_eq_nil]
    rw [shannon_entropy_per_byte, if_neg hne]
    have hterm : ∀ v ∈ Finset.range 256,
        (if (List.range 256).count v = 0 then (0:ℝ)
         else -((((List.range 256).count v : ℝ) / ((List.range 256).length : ℝ)) *
            Real.logb 2 (((List.range 256).count v : ℝ) /
              ((List.range 256).length : ℝ)))) = 1 / 32 := by
      intro v hv
      have hcount : (List.range 256).count v = 1 :=
        List.count_eq_one_of_mem (List.nodup_range 256)
          (List.mem_range.mpr (Finset.mem_range.mp hv))
      rw [hcount, if_neg (by norm_num), List.length_range]
      have hlogb : Real.logb 2 (((1:ℕ):ℝ) / ((256:ℕ):ℝ)) = -8 := by
        push_cast
        rw [one_div, Real.logb_inv, show ((256:ℝ)) = 2 ^ 8 by norm_num,
          Real.logb_pow, Real.logb_self_eq_one one_lt_two]
        norm_num
      rw [hlogb]
      push_cast
      norm_num
    rw [Finset.sum_congr rfl hterm, Finset.sum_const, Finset.card_range]
    norm_num

/-- C8 witness at the concrete buffer `[0]`. -/
theorem c8_entropy_range_witness :
    0 ≤ shannon_entropy_per_byte [0] ∧ shannon_entropy_per_byte [0] ≤ 8 :=
  c8_entropy_range.1 [0] (by decide)

lemma chiStat_nonneg (data : List ℕ) : 0 ≤ chiStat data := by
  apply Finset.sum_nonneg
  intro v _
  apply div_nonneg (mul_self_nonneg _)
  positivity

lemma byte_chi_square_eq (data : List ℕ) (h0 : ¬ data.length = 0) :
    byte_chi_square data = (chiStat data,
      1 - stdNormalCdf (((chiStat data / 255) ^ ((1:ℝ) / 3) - (1 - 2 / (9 * 255))) /
        Real.sqrt (2 / (9 * 255)))) := by
  simp only [byte_chi_square]
  rw [if_neg h0]

/-- C9: the `p_approx` value of `byte_chi_square` lies in `[0, 1]`: it is `0`
on the empty buffer and otherwise equals `1 − Φ(z)` for the Wilson–Hilferty
`z`, where `Φ = stdNormalCdf` takes values in `[0, 1]`. -/
theorem c9_chi_p_range (data : List ℕ) :
    (data = [] → (byte_chi_square data).2 = 0) ∧
    0 ≤ (byte_chi_square data).2 ∧ (byte_chi_square data).2 ≤ 1 ∧
    (data ≠ [] → ∃ z : ℝ, (byte_chi_square data).2 = 1 - stdNormalCdf z) := by
  by_cases h0 : data.length = 0
  · have hd : data = [] := List.length_eq_zero.mp h0
    subst hd
    have hv : byte_chi_square [] = (0, 0) := rfl
    rw [hv]
    exact ⟨fun _ => rfl, le_refl 0, zero_le_one, fun h => absurd rfl h⟩
  · rw [byte_chi_square_eq data h0]
    have hz := stdNormalCdf_nonneg (((chiStat data / 255) ^ ((1:ℝ) / 3) -
      (1 - 2 / (9 * 255))) / Real.sqrt (2 / (9 * 255)))
    have hz1 := stdNormalCdf_le_one (((chiStat data / 255) ^ ((1:ℝ) / 3) -
      (1 - 2 / (9 * 255))) / Real.sqrt (2 / (9 * 255)))
    refine ⟨fun h => absurd (by rw [h]; rfl) h0, by simpa using hz1, by simpa using hz,
      fun _ => ⟨_, rfl⟩⟩

/-- C9 witness at the concrete buffer `[1]`. -/
theorem c9_chi_p_range_witness :
    0 ≤ (byte_chi_square [1]).2 ∧ (byte_chi_square [1]).2 ≤ 1 :=
  ⟨(c9_chi_p_range [1]).2.1, (c9_chi_p_range [1]).2.2.1⟩

lemma monobit_testChecked_isSome (data : List ℕ) :
    (monobit_testChecked data).isSome := by
  by_cases h0 : (bits_from_bytes data).length = 0
  · simp only [monobit_testChecked]
    rw [if_pos h0]
    rfl
  · simp only [monobit_testChecked]
    rw [if_neg h0, if_pos ?_]
    · rfl
    · have hn : (0:ℝ) < ((bits_from_bytes data).length : ℝ) := by
        exact_mod_cast Nat.pos_of_ne_zero h0
      exact ⟨hn.le, (Real.sqrt_ne_zero'.mpr hn), by norm_num,
        Real.sqrt_ne_zero'.mpr (by norm_num)⟩

lemma runs_testChecked_isSome (data : List ℕ) :
    (runs_testChecked data).isSome := by
  by_cases h2 : (bits_from_bytes data).length < 2
  · simp only [runs_testChecked]
    rw [if_pos h2]
    rfl
  · by_cases hc : (bits_from_bytes data).sum = 0 ∨
        (bits_from_bytes data).length - (bits_from_bytes data).sum = 0
    · simp only [runs_testChecked]
      rw [if_neg h2, if_pos hc]
      rfl
    · have hn2 : 2 ≤ (bits_from_bytes data).length := not_lt.mp h2
      have hcond : ((bits_from_bytes data).length : ℝ) ≠ 0 ∧
          (((bits_from_bytes data).length : ℤ) ^ 2 *
            (((bits_from_bytes data).length : ℤ) - 1) : ℤ) ≠ 0 := by
        constructor
        · have : (0:ℝ) < ((bits_from_bytes data).length : ℝ) := by
            exact_mod_cast Nat.lt_of_lt_of_le Nat.zero_lt_two hn2
          exact this.ne'
        · have hz : (2:ℤ) ≤ ((bits_from_bytes data).length : ℤ) := by
            exact_mod_cast hn2
          have : (0:ℤ) < ((bits_from_bytes data).length : ℤ) ^ 2 *
              (((bits_from_bytes data).length : ℤ) - 1) :=
            mul_pos (pow_pos (by omega) 2) (by omega)
          exact this.ne'
      simp only [runs_testChecked]
      rw [if_neg h2, if_neg hc, if_pos hcond]
      by_cases hv : runsVariance (bits_from_bytes data).sum
          ((bits_from_bytes data).length - (bits_from_bytes data).sum)
          (bits_from_bytes data).length ≤ 0
      · rw [if_pos hv]
        rfl
      · rw [if_neg hv, if_pos ?_]
        · rfl
        · have hvpos : 0 < runsVariance (bits_from_bytes data).sum
              ((bits_from_bytes data).length - (bits_from_bytes data).sum)
              (bits_from_bytes data).length := not_le.mp hv
          exact ⟨hvpos.le, Real.sqrt_ne_zero'.mpr hvpos, by norm_num,
            Real.sqrt_ne_zero'.mpr (by norm_num)⟩

lemma byte_chi_squareChecked_isSome (data : List ℕ)
    (hb : ∀ b ∈ data, b < 256) : (byte_chi_squareChecked data).isSome := by
  by_cases h0 : data.length = 0
  · simp only [byte_chi_squareChecked]
    rw [if_pos h0]
    rfl
  · have hn : (0:ℝ) < (data.length : ℝ) := by
      exact_mod_cast Nat.pos_of_ne_zero h0
    simp only [byte_chi_squareChecked]
    rw [if_neg h0, if_pos hb, if_pos ?c2, if_pos ?c3]
    · rfl
    case c2 =>
      refine ⟨by norm_num, ?_⟩
      positivity
    case c3 =>
      refine ⟨by norm_num, ?_, by norm_num, by norm_num, ?_, by norm_num, ?_⟩
      · exact div_nonneg (chiStat_nonneg data) (by norm_num)
      · exact Real.sqrt_ne_zero'.mpr (by norm_num)
      · exact Real.sqrt_ne_zero'.mpr (by norm_num)

lemma shannon_entropyChecked_isSome (data : List ℕ)
    (hb : ∀ b ∈ data, b < 256) : (shannon_entropyChecked data).isSome := by
  by_cases hnil : data = []
  · simp only [shannon_entropyChecked]
    rw [if_pos hnil]
    rfl
  · have hn : (0:ℝ) < (data.length : ℝ) := by
      exact_mod_cast List.length_pos.mpr hnil
    simp only [shannon_entropyChecked]
    rw [if_neg hnil, if_pos ?_]
    · rfl
    · refine ⟨hb, hn.ne', fun v _ hv => ?_⟩
      apply div_pos _ hn
      exact_mod_cast Nat.pos_of_ne_zero hv

lemma serial_correlationChecked_isSome (data : List ℕ) :
    (serial_correlationChecked data).isSome := by
  simp only [serial_correlationChecked]
  split_ifs <;> rfl

/-- C3: every one of the five checked test embeddings returns a value (no
primitive operation raises) on every byte buffer, and on the empty buffer
each total embedding returns its defined degenerate result: a zero monobit
record, a zero runs record, `(0, 0)` for the chi-square pair, entropy `0`
and serial correlation `0`. -/
theorem c3_totality :
    (∀ data : List ℕ, (∀ b ∈ data, b < 256) →
      (monobit_testChecked data).isSome ∧ (runs_testChecked data).isSome ∧
      (byte_chi_squareChecked data).isSome ∧ (shannon_entropyChecked data).isSome ∧
      (serial_correlationChecked data).isSome) ∧
    monobit_test [] = ⟨0, 0, 0, 0⟩ ∧ runs_test [] = ⟨0, 0, 0, 0⟩ ∧
    byte_chi_square [] = (0, 0) ∧ shannon_entropy_per_byte [] = 0 ∧
    serial_correlation [] = 0 := by
  refine ⟨fun data hb => ⟨monobit_testChecked_isSome data,
    runs_testChecked_isSome data, byte_chi_squareChecked_isSome data hb,
    shannon_entropyChecked_isSome data hb, serial_correlationChecked_isSome data⟩,
    rfl, rfl, rfl, ?_, rfl⟩
  rw [shannon_entropy_per_byte, if_pos rfl]

/-- C3 witness at the concrete buffer `[7]`. -/
theorem c3_totality_witness :
    (monobit_testChecked [7]).isSome ∧ (runs_testChecked [7]).isSome ∧
    (byte_chi_squareChecked [7]).isSome ∧ (shannon_entropyChecked [7]).isSome ∧
    (serial_correlationChecked [7]).isSome :=
  c3_totality.1 [7] (by decide)
